import Mathlib

/-!
Verification of the concurrency core of the `photos1` repository.

The core under study is `src/double_buffer.rs` (a generation-swapping
double buffer `BufBuf<T>` built from `Arc<Mutex<T>>` cells, with a
pending slot `Arc<Mutex<Option<Arc<Mutex<T>>>>>` shared with cloneable
`BufBufWrite` publish handles, and weak back-references obtained by
`Arc::downgrade` in `set_next`), and the task mailbox
(`TaskChannel` in `src/lib.rs` / `src/task_channel.rs`: a
`tokio::sync::mpsc::channel(1)` bounded queue drained by a single
spawned consumer loop that invokes `app.update` per message and routes
errors to `app.handle_error`; `TaskChannel::send` calls
`blocking_send(msg).unwrap()`).

The embedding models `Arc` cells as entries of a growable heap of
values, identified by allocation index.  A cell's strong count is the
number of holders: the buffer's `current` field, the pending slot, and
the multiset of strong references held by worker tasks that upgraded a
weak back-reference.  `Weak::upgrade` succeeds exactly when the strong
count is positive, which is the `Arc`/`Weak` contract: a `Weak` can be
upgraded while some strong reference keeps the allocation alive, and
never again after the strong count reaches zero.
-/

/-- State of one `BufBuf<T>` instance together with the worker-side
strong references that exist against its cells.

* `heap` is the sequence of `Arc<Mutex<T>>` allocations made so far;
  a cell is identified by its index. Entries are never physically
  removed; liveness is tracked by the strong count.
* `current` is the index of the cell held by the `current` field.
* `pending` is the content of the `next` slot
  (`Option<Arc<Mutex<T>>>`).
* `workerRefs` is the multiset (as a list) of cell indices to which
  worker code currently holds an upgraded strong reference. -/
structure BufState (α : Type) where
  heap : List α
  current : Nat
  pending : Option Nat
  workerRefs : List Nat
deriving Repr, DecidableEq

namespace BufState

/-- `BufBuf::new(v)`: one fresh cell holding `v` is current, the
pending slot is `None`, and no worker holds any reference. -/
def new (v : α) : BufState α := ⟨[v], 0, none, []⟩

/-- `BufBufWrite::set_next(v)`: allocate a fresh cell holding `v`
(`Arc::new(Mutex::new(v))`), overwrite the pending slot with it
(dropping whatever was there), and return the index of the weak
back-reference produced by `Arc::downgrade`. -/
def setNext (s : BufState α) (v : α) : BufState α × Nat :=
  (⟨s.heap ++ [v], s.current, some s.heap.length, s.workerRefs⟩, s.heap.length)

/-- Number of strong references to cell `c`: one from the `current`
field if it points there, one from the pending slot if it holds `c`,
and one per upgraded worker handle. -/
def strongCount (s : BufState α) (c : Nat) : Nat :=
  (if s.current = c then 1 else 0) +
    (if s.pending = some c then 1 else 0) +
    s.workerRefs.count c

/-- `Weak::upgrade` on the back-reference to cell `c`: yields a strong
handle exactly when the cell still has a positive strong count. -/
def upgrade (s : BufState α) (c : Nat) : Option Nat :=
  if 0 < s.strongCount c then some c else none

/-- `BufBuf::lock()` dereferenced: the model value stored in the
current generation's cell. -/
def readCurrent [Inhabited α] (s : BufState α) : α :=
  s.heap.getD s.current default

/-- `BufBuf::swap(f)`: take-and-clear the pending slot; if it was
empty do nothing, otherwise exchange the taken cell with `current`
(`std::mem::swap`), call the hook `f` with mutable access to the old
and the new current value, and drop the local `old` binding.  The
second component records the argument pair the hook was invoked with
(`none` when the hook was not invoked). -/
def swap [Inhabited α] (f : α → α → α × α) (s : BufState α) :
    BufState α × Option (α × α) :=
  match s.pending with
  | none => (s, none)
  | some p =>
    let oldV := s.heap.getD s.current default
    let newV := s.heap.getD p default
    (⟨(s.heap.set s.current (f oldV newV).1).set p (f oldV newV).2,
        p, none, s.workerRefs⟩,
      some (oldV, newV))

/-- A sequence of `set_next` calls with no intervening swap. -/
def publishSeq (s : BufState α) (vs : List α) : BufState α :=
  vs.foldl (fun t v => (t.setNext v).1) s

end BufState

/-- Interleaved operations on one buffer: a producer publishing via a
`BufBufWrite` handle, the consumer swapping with some hook, a worker
upgrading a weak back-reference (which succeeds only while the cell is
alive and then holds a strong reference), and a worker dropping a
strong reference it holds. -/
inductive BufStep [Inhabited α] : BufState α → BufState α → Prop
  | publish (s : BufState α) (v : α) : BufStep s (s.setNext v).1
  | doSwap (s : BufState α) (f : α → α → α × α) :
      BufStep s (BufState.swap f s).1
  | upgradeRef (s : BufState α) (c : Nat) (h : 0 < s.strongCount c) :
      BufStep s ⟨s.heap, s.current, s.pending, c :: s.workerRefs⟩
  | dropRef (s : BufState α) (c : Nat) (h : c ∈ s.workerRefs) :
      BufStep s ⟨s.heap, s.current, s.pending, s.workerRefs.erase c⟩

/-- Heap length never shrinks along a step. -/
theorem bufStep_heap_mono [Inhabited α] {s t : BufState α}
    (h : BufStep s t) : s.heap.length ≤ t.heap.length := by
  cases h with
  | publish v => simp [BufState.setNext]
  | doSwap f =>
    cases hp : s.pending with
    | none => simp [BufState.swap, hp]
    | some p => simp [BufState.swap, hp]
  | upgradeRef c h => simp
  | dropRef c h => simp

/-- A dead allocated cell stays dead across any single step: no
operation creates a new strong reference to a cell whose strong count
has reached zero. -/
theorem bufStep_dead_persists [Inhabited α] {s t : BufState α} {c : Nat}
    (hstep : BufStep s t) (hc : c < s.heap.length)
    (hdead : s.strongCount c = 0) : t.strongCount c = 0 := by
  have hcur : s.current ≠ c := by
    intro h; simp [BufState.strongCount, h] at hdead
  have hpend : s.pending ≠ some c := by
    intro h; simp [BufState.strongCount, h] at hdead
  have hcount : s.workerRefs.count c = 0 := by
    simp [BufState.strongCount, hcur, hpend] at hdead
    omega
  cases hstep with
  | publish v =>
    have hne : s.heap.length ≠ c := by omega
    simp [BufState.setNext, BufState.strongCount, hcur, hne, hcount]
  | doSwap f =>
    cases hp : s.pending with
    | none => simp [BufState.swap, hp, BufState.strongCount, hcur, hpend,
        hcount]
    | some p =>
      have hpc : p ≠ c := by
        intro h; exact hpend (by rw [hp, h])
      simp [BufState.swap, hp, BufState.strongCount, hpc, hcount]
  | upgradeRef c' h =>
    have hne : c' ≠ c := by
      intro h'
      rw [h'] at h
      omega
    simp [BufState.strongCount, hcur, hpend, List.count_cons, hne, hcount]
  | dropRef c' h =>
    have herase : (s.workerRefs.erase c').count c ≤ s.workerRefs.count c := by
      rw [List.count_erase]
      omega
    simp [BufState.strongCount, hcur, hpend]
    omega

/-- A `tokio::sync::mpsc` bounded channel as created and used by
`TaskChannel`: a buffer of at most `capacity` messages plus the
closed flag that becomes true when the receiver is dropped. -/
structure Chan (Msg : Type) where
  capacity : Nat
  queue : List Msg
  closed : Bool
deriving Repr, DecidableEq

/-- Outcome of `Sender::blocking_send`: the message was enqueued, the
call blocks because the buffer is full (it will be retried when the
consumer advances), or the channel is closed and the message comes
back inside `Err(SendError(msg))`. -/
inductive SendOutcome (Msg : Type) where
  | sent (c : Chan Msg)
  | blocked
  | closedErr (m : Msg)
deriving Repr, DecidableEq

/-- `Sender::blocking_send(m)`: fails if the receiver is gone,
enqueues if there is room, otherwise blocks the calling thread. -/
def blockingSend (c : Chan Msg) (m : Msg) : SendOutcome Msg :=
  if c.closed then .closedErr m
  else if c.queue.length < c.capacity then
    .sent ⟨c.capacity, c.queue ++ [m], c.closed⟩
  else .blocked

/-- The channel `TaskChannel::new` creates:
`tokio::sync::mpsc::channel(1)`, initially empty and open. -/
def taskChannelChan (Msg : Type) : Chan Msg := ⟨1, [], false⟩

/-- A channel together with the log of messages sent so far and the
log of messages the consumer has received so far. -/
structure ChanSys (Msg : Type) where
  chan : Chan Msg
  sent : List Msg
  received : List Msg
deriving Repr, DecidableEq

/-- The system as `TaskChannel::new` sets it up: fresh capacity-1
channel, nothing sent, nothing received. -/
def chanSysInit (Msg : Type) : ChanSys Msg :=
  ⟨taskChannelChan Msg, [], []⟩

/-- Interleaved channel activity: the render thread completing a
`blocking_send`, or the consumer loop receiving the next message.
A send that would block is simply not enabled yet: the sender waits. -/
inductive ChanStep : ChanSys Msg → ChanSys Msg → Prop
  | send (y : ChanSys Msg) (m : Msg) (c' : Chan Msg)
      (h : blockingSend y.chan m = .sent c') :
      ChanStep y ⟨c', y.sent ++ [m], y.received⟩
  | recv (y : ChanSys Msg) (m : Msg) (q : List Msg)
      (h : y.chan.queue = m :: q) :
      ChanStep y ⟨⟨y.chan.capacity, q, y.chan.closed⟩, y.sent,
        y.received ++ [m]⟩

/-- Result of `TaskChannel::send`, which unwraps the
`blocking_send` result: either the send proceeds, or the thread is
still blocked waiting for room, or `unwrap` panics on `Err`. -/
inductive TaskSendResult (Msg : Type) where
  | sent (c : Chan Msg)
  | blocked
  | panicked
deriving Repr, DecidableEq

/-- `TaskChannel::send(msg)`: `self.sender.blocking_send(msg).unwrap()`.
The `Err(SendError(_))` case is turned into a panic by `unwrap`. -/
def taskChannelSend (c : Chan Msg) (m : Msg) : TaskSendResult Msg :=
  match blockingSend c m with
  | .sent c' => .sent c'
  | .blocked => .blocked
  | .closedErr _ => .panicked

/-- Observable events of the consumer loop in `TaskChannel::new`:
an invocation of `app.update` on a message, and an invocation of
`app.handle_error` on an error returned by `update`. -/
inductive MailEvent (Msg ε : Type) where
  | updateCall (m : Msg)
  | errorHandled (e : ε)
deriving Repr, DecidableEq

/-- The message of an `updateCall` event. -/
def MailEvent.msgOf : MailEvent Msg ε → Option Msg
  | .updateCall m => some m
  | .errorHandled _ => none

/-- The error of an `errorHandled` event. -/
def MailEvent.errOf : MailEvent Msg ε → Option ε
  | .updateCall _ => none
  | .errorHandled e => some e

/-- The consumer loop spawned by `TaskChannel::new`, applied to the
sequence of messages it receives.  Each iteration awaits
`app.update(&model, msg)`; its completion is required before the next
`recv`, so update invocations are sequential by construction.  When
`update` returns `Err(err)` the loop calls `app.handle_error(err)`
and continues; nothing is ever returned to the sender.  `update` is
the application's update function, threading an application state
`σ` (which includes anything `update` publishes) and possibly
producing an error. -/
def consumerLoop (update : σ → Msg → σ × Option ε) :
    σ → List Msg → σ × List (MailEvent Msg ε)
  | s, [] => (s, [])
  | s, m :: ms =>
    let s1 := (update s m).1
    let evs : List (MailEvent Msg ε) :=
      match (update s m).2 with
      | none => [MailEvent.updateCall m]
      | some e => [MailEvent.updateCall m, MailEvent.errorHandled e]
    let r := consumerLoop update s1 ms
    (r.1, evs ++ r.2)

/-- Reading an index just overwritten by `List.set` yields the written
value. -/
theorem getD_set_self (l : List α) (i : Nat) (a d : α) (h : i < l.length) :
    (l.set i a).getD i d = a := by
  rw [List.getD_eq_getElem _ _ (by simpa using h)]
  exact List.getElem_set_self _

/-- C1: from any buffer state, `set_next(m)` followed immediately by
`swap` invokes the hook with the previously current model as its first
(old) argument and `m` as its second (new) argument; and provided the
hook leaves the new value in place, `read_current()` afterwards yields
`m`. -/
theorem publish_then_swap_roundtrip [Inhabited α] (s : BufState α) (m : α)
    (f : α → α → α × α) (hc : s.current < s.heap.length) :
    (BufState.swap f (s.setNext m).1).2 = some (s.readCurrent, m) ∧
    ((∀ a b, (f a b).2 = b) →
      (BufState.swap f (s.setNext m).1).1.readCurrent = m) := by
  have hold : (s.heap ++ [m]).getD s.current default = s.readCurrent :=
    List.getD_append _ _ _ _ hc
  have hnew : (s.heap ++ [m]).getD s.heap.length default = m := by
    rw [List.getD_append_right _ _ _ _ (Nat.le_refl _)]
    simp
  constructor
  · simp only [BufState.setNext, BufState.swap]
    rw [hold, hnew]
  · intro hf
    simp only [BufState.setNext, BufState.swap, BufState.readCurrent, hf]
    rw [hnew, getD_set_self]
    simp

/-- Concrete run of `publish_then_swap_roundtrip`: publish 7 over an
initial model 0, swap with a hook that mutates nothing. -/
theorem publish_then_swap_roundtrip_witness :
    (BufState.swap (fun a b => (a, b))
        ((BufState.new (0 : Nat)).setNext 7).1).2 = some (0, 7) ∧
    (BufState.swap (fun a b => (a, b))
        ((BufState.new (0 : Nat)).setNext 7).1).1.readCurrent = 7 := by
  have h := publish_then_swap_roundtrip (BufState.new (0 : Nat)) 7
      (fun a b => (a, b)) (by decide)
  exact ⟨h.1, h.2 (fun a b => rfl)⟩

/-- C2: `swap` on an empty pending slot returns immediately, with no
hook call and no change to the state (current generation and pending
slot included); `swap` on a non-empty pending slot invokes the hook
exactly once, with the current and pending values, and leaves the
pending slot empty. -/
theorem swap_hook_iff_pending [Inhabited α] (s : BufState α)
    (f : α → α → α × α) :
    (s.pending = none → BufState.swap f s = (s, none)) ∧
    (∀ p, s.pending = some p →
      (BufState.swap f s).2 =
        some (s.heap.getD s.current default, s.heap.getD p default) ∧
      (BufState.swap f s).1.pending = none) := by
  constructor
  · intro h
    simp [BufState.swap, h]
  · intro p hp
    simp [BufState.swap, hp]

/-- Concrete runs of `swap_hook_iff_pending`: an empty-pending state is
untouched, a state with pending value 8 over current 7 fires the hook
with (7, 8) and clears the slot. -/
theorem swap_hook_iff_pending_witness :
    BufState.swap (fun a b => (a, b))
        (⟨[7], 0, none, []⟩ : BufState Nat) = (⟨[7], 0, none, []⟩, none) ∧
    (BufState.swap (fun a b => (a, b))
        (⟨[7, 8], 0, some 1, []⟩ : BufState Nat)).2 = some (7, 8) ∧
    (BufState.swap (fun a b => (a, b))
        (⟨[7, 8], 0, some 1, []⟩ : BufState Nat)).1.pending = none := by
  have h1 := (swap_hook_iff_pending (⟨[7], 0, none, []⟩ : BufState Nat)
      (fun a b => (a, b))).1 rfl
  have h2 := (swap_hook_iff_pending (⟨[7, 8], 0, some 1, []⟩ : BufState Nat)
      (fun a b => (a, b))).2 1 rfl
  exact ⟨h1, h2.1, h2.2⟩

/-- C8: `set_next` modifies only the pending slot.  The current index,
the current generation's model value, every already-allocated cell's
value, and the worker references are unchanged, and the weak
back-reference the call returns points at the freshly allocated cell,
never at the current one — write access to current can only arise from
a published generation being swapped in later. -/
theorem setNext_frame [Inhabited α] (s : BufState α) (v : α)
    (hc : s.current < s.heap.length) :
    (s.setNext v).1.current = s.current ∧
    (s.setNext v).1.readCurrent = s.readCurrent ∧
    (∀ c, c < s.heap.length →
      (s.setNext v).1.heap.getD c default = s.heap.getD c default) ∧
    (s.setNext v).2 ≠ s.current ∧
    (s.setNext v).1.workerRefs = s.workerRefs := by
  refine ⟨rfl, ?_, ?_, ?_, rfl⟩
  · exact List.getD_append _ _ _ _ hc
  · intro c hcl
    exact List.getD_append _ _ _ _ hcl
  · simp only [BufState.setNext]
    omega

/-- Concrete run of `setNext_frame` on the initial buffer. -/
theorem setNext_frame_witness :
    ((BufState.new (5 : Nat)).setNext 9).1.current = 0 ∧
    ((BufState.new (5 : Nat)).setNext 9).1.readCurrent = 5 ∧
    ((BufState.new (5 : Nat)).setNext 9).2 ≠ 0 := by
  have h := setNext_frame (BufState.new (5 : Nat)) 9 (by decide)
  exact ⟨h.1, h.2.1, h.2.2.2.1⟩

/-- `swap` on an empty pending slot is the identity and does not call
the hook. -/
theorem swap_of_pending_none [Inhabited α] (f : α → α → α × α)
    (s : BufState α) (h : s.pending = none) :
    BufState.swap f s = (s, none) := by
  simp [BufState.swap, h]

/-- `swap` on a pending cell `p`: current becomes `p`, the slot is
cleared, the hook runs on the old current value and `p`'s value, and
its in-place mutations land in the two cells. -/
theorem swap_of_pending_some [Inhabited α] (f : α → α → α × α)
    (s : BufState α) (p : Nat) (h : s.pending = some p) :
    BufState.swap f s =
      (⟨(s.heap.set s.current
            (f (s.heap.getD s.current default) (s.heap.getD p default)).1).set
          p (f (s.heap.getD s.current default) (s.heap.getD p default)).2,
        p, none, s.workerRefs⟩,
      some (s.heap.getD s.current default, s.heap.getD p default)) := by
  simp [BufState.swap, h]

/-- A publish sequence only appends the published values to the heap. -/
theorem publishSeq_heap (s : BufState α) (vs : List α) :
    (BufState.publishSeq s vs).heap = s.heap ++ vs := by
  induction vs generalizing s with
  | nil => simp [BufState.publishSeq]
  | cons v vs ih =>
    simp only [BufState.publishSeq, List.foldl_cons] at *
    rw [ih]
    simp [BufState.setNext]

/-- A publish sequence never moves the current generation. -/
theorem publishSeq_current (s : BufState α) (vs : List α) :
    (BufState.publishSeq s vs).current = s.current := by
  induction vs generalizing s with
  | nil => rfl
  | cons v vs ih =>
    simp only [BufState.publishSeq, List.foldl_cons] at *
    rw [ih]
    rfl

/-- A publish sequence never touches worker-held references. -/
theorem publishSeq_workerRefs (s : BufState α) (vs : List α) :
    (BufState.publishSeq s vs).workerRefs = s.workerRefs := by
  induction vs generalizing s with
  | nil => rfl
  | cons v vs ih =>
    simp only [BufState.publishSeq, List.foldl_cons] at *
    rw [ih]
    rfl

/-- After a non-empty publish sequence the pending slot holds the cell
allocated by the last publish. -/
theorem publishSeq_pending (s : BufState α) (vs : List α) (h : vs ≠ []) :
    (BufState.publishSeq s vs).pending =
      some (s.heap.length + vs.length - 1) := by
  induction vs generalizing s with
  | nil => exact absurd rfl h
  | cons v vs ih =>
    by_cases hvs : vs = []
    · subst hvs
      simp only [BufState.publishSeq, List.foldl_cons, List.foldl_nil,
        BufState.setNext, List.length_cons, List.length_nil]
      have harith : s.heap.length + (0 + 1) - 1 = s.heap.length := by omega
      rw [harith]
    · simp only [BufState.publishSeq, List.foldl_cons] at *
      rw [ih _ hvs]
      simp only [BufState.setNext, List.length_append, List.length_cons,
        List.length_nil]
      congr 1
      omega

/-- C3: the pending slot holds at most one generation (it is an
`Option`; each `set_next` overwrites it), and after any sequence of
publishes with no intervening swap only the last published generation
is observable: the pending slot holds its cell, a subsequent swap's
hook receives its value (next to the unchanged current value), and the
weak back-reference of every earlier publish of the sequence fails to
upgrade — its cell has no strong holder left. -/
theorem publish_last_wins [Inhabited α] (s : BufState α) (vs : List α)
    (h : vs ≠ []) (hc : s.current < s.heap.length)
    (hw : ∀ c ∈ s.workerRefs, c < s.heap.length) :
    (BufState.publishSeq s vs).pending =
      some (s.heap.length + vs.length - 1) ∧
    (∀ f : α → α → α × α,
      (BufState.swap f (BufState.publishSeq s vs)).2 =
        some (s.readCurrent, vs.getLast h)) ∧
    (∀ i, i + 1 < vs.length →
      (BufState.publishSeq s vs).upgrade (s.heap.length + i) = none) := by
  have hlen : 0 < vs.length := List.length_pos.mpr h
  have hpend := publishSeq_pending s vs h
  refine ⟨hpend, ?_, ?_⟩
  · intro f
    rw [swap_of_pending_some f _ _ hpend]
    rw [publishSeq_heap, publishSeq_current]
    rw [List.getD_append _ _ _ _ hc]
    rw [List.getD_append_right _ _ _ _ (by omega)]
    have hidx : s.heap.length + vs.length - 1 - s.heap.length =
        vs.length - 1 := by omega
    rw [hidx, List.getD_eq_getElem vs _ (by omega), List.getLast_eq_getElem]
    rfl
  · intro i hi
    have hcnt : s.workerRefs.count (s.heap.length + i) = 0 := by
      refine List.count_eq_zero.mpr fun hmem => ?_
      have := hw _ hmem
      omega
    have hzero : (BufState.publishSeq s vs).strongCount
        (s.heap.length + i) = 0 := by
      rw [BufState.strongCount, publishSeq_current, publishSeq_workerRefs,
        hpend]
      have hne : ¬ s.current = s.heap.length + i := by omega
      have hpe : ¬ (some (s.heap.length + vs.length - 1) =
          some (s.heap.length + i)) := by
        intro hcon
        have := Option.some.inj hcon
        omega
      rw [if_neg hne, if_neg hpe, hcnt]
    simp [BufState.upgrade, hzero]

/-- Concrete run of `publish_last_wins`: three publishes over a fresh
buffer; only the last one (cell 3, value 3) stays observable, and the
superseded first publish (cell 1) can no longer be upgraded. -/
theorem publish_last_wins_witness :
    (BufState.publishSeq (BufState.new (0 : Nat)) [1, 2, 3]).pending =
      some 3 ∧
    (BufState.swap (fun a b => (a, b))
        (BufState.publishSeq (BufState.new (0 : Nat)) [1, 2, 3])).2 =
      some (0, 3) ∧
    (BufState.publishSeq (BufState.new (0 : Nat)) [1, 2, 3]).upgrade 1 =
      none := by
  have h := publish_last_wins (BufState.new (0 : Nat)) [1, 2, 3]
      (by decide) (by decide) (by simp [BufState.new])
  exact ⟨h.1, h.2.1 (fun a b => (a, b)), h.2.2 0 (by decide)⟩

/-- C4: a weak back-reference to cell `c` upgrades successfully while
any strong holder exists — in particular while `c` sits in the pending
slot, while it is the current generation, or while a worker holds an
upgraded reference to it; and once the strong count of an allocated
cell has reached zero, the upgrade fails in that state and in every
state reachable from it by any interleaving of publish, swap, upgrade
and drop operations: a dead generation is never resurrected. -/
theorem weak_backref_lifecycle [Inhabited α] (c : Nat) (s t : BufState α)
    (hc : c < s.heap.length) :
    ((s.pending = some c ∨ s.current = c ∨ c ∈ s.workerRefs) →
      s.upgrade c = some c) ∧
    (s.strongCount c = 0 →
      Relation.ReflTransGen BufStep s t → t.upgrade c = none) := by
  constructor
  · intro hl
    have hpos : 0 < s.strongCount c := by
      rcases hl with h1 | h1 | h1
      · have h2 : (0 : Nat) < if s.pending = some c then 1 else 0 := by
          simp [h1]
        unfold BufState.strongCount
        omega
      · have h2 : (0 : Nat) < if s.current = c then 1 else 0 := by
          simp [h1]
        unfold BufState.strongCount
        omega
      · have h2 : 0 < s.workerRefs.count c := List.count_pos_iff.mpr h1
        unfold BufState.strongCount
        omega
    simp [BufState.upgrade, hpos]
  · intro hdead hchain
    have key : t.strongCount c = 0 ∧ c < t.heap.length := by
      induction hchain with
      | refl => exact ⟨hdead, hc⟩
      | tail hst step ih =>
        exact ⟨bufStep_dead_persists step ih.2 ih.1,
          Nat.lt_of_lt_of_le ih.2 (bufStep_heap_mono step)⟩
    simp [BufState.upgrade, key.1]

/-- Concrete runs of `weak_backref_lifecycle`: cell 1 upgrades while
pending, and a dead cell 1 stays un-upgradeable (empty chain). -/
theorem weak_backref_lifecycle_witness :
    (⟨[5, 6], 0, some 1, []⟩ : BufState Nat).upgrade 1 = some 1 ∧
    (⟨[5, 6], 0, none, []⟩ : BufState Nat).upgrade 1 = none := by
  have h1 := (weak_backref_lifecycle 1
      (⟨[5, 6], 0, some 1, []⟩ : BufState Nat)
      (⟨[5, 6], 0, some 1, []⟩ : BufState Nat) (by decide)).1 (Or.inl rfl)
  have h2 := (weak_backref_lifecycle 1
      (⟨[5, 6], 0, none, []⟩ : BufState Nat)
      (⟨[5, 6], 0, none, []⟩ : BufState Nat) (by decide)).2 (by decide)
      Relation.ReflTransGen.refl
  exact ⟨h1, h2⟩

/-- The claim that whenever `swap` is about to invoke the hook (the
pending slot is non-empty) in a state reachable from a fresh buffer by
interleaved publish / swap / worker-upgrade / worker-drop activity, no
worker holds a strong reference to the current (about-to-become-old)
generation, i.e. the old cell's only strong holder is the swap call
itself. -/
def swapOldSoleHolder : Prop :=
  ∀ s : BufState Nat,
    Relation.ReflTransGen BufStep (BufState.new 0) s →
    s.pending.isSome = true →
    s.workerRefs.count s.current = 0

/-- C9 refuted: publish generation 1, swap it in, let a worker upgrade
the weak back-reference to it (legal: the cell is current, hence
alive) and keep the strong handle, then publish generation 2.  The
resulting reachable state has a pending generation — so the next swap
does invoke the hook — while the worker still holds a strong reference
to the about-to-become-old current generation. -/
theorem swap_old_sole_holder_cex : ¬ swapOldSoleHolder := by
  intro hclaim
  have h1 : BufStep (BufState.new (0 : Nat))
      (⟨[0, 1], 0, some 1, []⟩ : BufState Nat) :=
    BufStep.publish (BufState.new (0 : Nat)) 1
  have h2 : BufStep (⟨[0, 1], 0, some 1, []⟩ : BufState Nat)
      (⟨[0, 1], 1, none, []⟩ : BufState Nat) :=
    BufStep.doSwap (⟨[0, 1], 0, some 1, []⟩ : BufState Nat)
      (fun a b => (a, b))
  have h3 : BufStep (⟨[0, 1], 1, none, []⟩ : BufState Nat)
      (⟨[0, 1], 1, none, [1]⟩ : BufState Nat) :=
    BufStep.upgradeRef (⟨[0, 1], 1, none, []⟩ : BufState Nat) 1 (by decide)
  have h4 : BufStep (⟨[0, 1], 1, none, [1]⟩ : BufState Nat)
      (⟨[0, 1, 2], 1, some 2, [1]⟩ : BufState Nat) :=
    BufStep.publish (⟨[0, 1], 1, none, [1]⟩ : BufState Nat) 2
  have hchain : Relation.ReflTransGen BufStep (BufState.new (0 : Nat))
      (⟨[0, 1, 2], 1, some 2, [1]⟩ : BufState Nat) :=
    Relation.ReflTransGen.tail (Relation.ReflTransGen.tail
      (Relation.ReflTransGen.tail (Relation.ReflTransGen.single h1) h2) h3)
      h4
  have hbad := hclaim (⟨[0, 1, 2], 1, some 2, [1]⟩ : BufState Nat)
      hchain (by decide)
  exact absurd hbad (by decide)

/-- C9 amended: at the instant `swap` invokes the hook, the buffer
itself holds no reference to the old generation beyond the swap call's
own local one (old is neither pending nor, after the exchange,
current); if additionally no worker happens to hold a strong reference
obtained from an earlier weak upgrade, the old generation's strong
count is zero once `swap` drops its local handle, and its weak
back-references fail to upgrade. -/
theorem swap_old_released_if_unheld [Inhabited α] (s : BufState α)
    (f : α → α → α × α) (p : Nat) (hp : s.pending = some p)
    (hne : p ≠ s.current) (hw : s.workerRefs.count s.current = 0) :
    (BufState.swap f s).1.strongCount s.current = 0 ∧
    (BufState.swap f s).1.upgrade s.current = none := by
  have hsc : (BufState.swap f s).1.strongCount s.current = 0 := by
    rw [swap_of_pending_some f s p hp]
    simp [BufState.strongCount, hne, hw]
  exact ⟨hsc, by simp [BufState.upgrade, hsc]⟩

/-- Concrete run of `swap_old_released_if_unheld`: with pending cell 1
over current cell 0 and no worker references, the swap leaves cell 0
dead and un-upgradeable. -/
theorem swap_old_released_if_unheld_witness :
    (BufState.swap (fun a b => (a, b))
        (⟨[7, 8], 0, some 1, []⟩ : BufState Nat)).1.strongCount 0 = 0 ∧
    (BufState.swap (fun a b => (a, b))
        (⟨[7, 8], 0, some 1, []⟩ : BufState Nat)).1.upgrade 0 = none := by
  have h := swap_old_released_if_unheld
      (⟨[7, 8], 0, some 1, []⟩ : BufState Nat) (fun a b => (a, b)) 1
      rfl (by decide) rfl
  exact h

/-- C5: for every sequence of messages delivered to the mailbox's
consumer loop, the application's update function is invoked exactly
once per message, in exactly the order the messages were sent.  The
loop awaits each `update` call before receiving the next message — in
the model each call's resulting state is threaded into the rest of the
run — so no two update invocations overlap: there is one logical
sequential consumer. -/
theorem update_calls_in_send_order (update : σ → Msg → σ × Option ε)
    (s : σ) (msgs : List Msg) :
    ((consumerLoop update s msgs).2).filterMap MailEvent.msgOf = msgs := by
  induction msgs generalizing s with
  | nil => simp [consumerLoop]
  | cons m ms ih =>
    cases hu : (update s m).2 with
    | none =>
      simp [consumerLoop, hu, MailEvent.msgOf, ih]
    | some e =>
      simp [consumerLoop, hu, MailEvent.msgOf, ih]

/-- C6: when `update` returns an error on a message, the consumer loop
hands the error to `handle_error` (the `errorHandled` event directly
after the update call) and then discards it: the remainder of the run
is exactly the loop on the remaining messages, so the loop neither
terminates nor skips anything, and the error reaches no sender — the
loop's events and state are its only outputs and the error appears
only in the `errorHandled` event. -/
theorem update_error_routed_loop_continues
    (update : σ → Msg → σ × Option ε) (s : σ) (m : Msg) (e : ε)
    (ms : List Msg) (h : (update s m).2 = some e) :
    (consumerLoop update s (m :: ms)).2 =
      MailEvent.updateCall m :: MailEvent.errorHandled e ::
        (consumerLoop update (update s m).1 ms).2 ∧
    (consumerLoop update s (m :: ms)).1 =
      (consumerLoop update (update s m).1 ms).1 := by
  constructor
  · simp [consumerLoop, h]
  · simp [consumerLoop, h]

/-- Concrete run of `update_error_routed_loop_continues`: an update
function that always fails still produces one update call per message,
each followed by a handled error, and the loop runs to the end. -/
theorem update_error_routed_witness :
    (consumerLoop (fun (s m : Nat) => (s + m, some m)) 0 [5, 7]).2 =
      [MailEvent.updateCall 5, MailEvent.errorHandled 5,
        MailEvent.updateCall 7, MailEvent.errorHandled 7] := by
  rw [(update_error_routed_loop_continues
      (fun (s m : Nat) => (s + m, some m)) 0 5 5 [7] rfl).1]
  rfl

/-- A single send or receive step preserves the mailbox invariant:
fixed capacity 1, channel open, the receive log followed by the queue
equals the send log, and at most one message buffered. -/
theorem chanStep_invariant {y z : ChanSys Msg} (hstep : ChanStep y z)
    (ih : y.chan.capacity = 1 ∧ y.chan.closed = false ∧
      y.received ++ y.chan.queue = y.sent ∧ y.chan.queue.length ≤ 1) :
    z.chan.capacity = 1 ∧ z.chan.closed = false ∧
      z.received ++ z.chan.queue = z.sent ∧ z.chan.queue.length ≤ 1 := by
  obtain ⟨ihcap, ihcl, ihfifo, ihlen⟩ := ih
  cases hstep with
  | send m c' hs =>
    rw [blockingSend, if_neg (by simp [ihcl])] at hs
    by_cases hroom : y.chan.queue.length < y.chan.capacity
    · rw [if_pos hroom] at hs
      cases hs
      refine ⟨ihcap, ihcl, ?_, ?_⟩
      · simp only [← ihfifo, List.append_assoc]
      · simp only [List.length_append, List.length_cons, List.length_nil]
        omega
    · rw [if_neg hroom] at hs
      cases hs
  | recv m q hq =>
    refine ⟨ihcap, ihcl, ?_, ?_⟩
    · rw [← ihfifo, hq]
      simp
    · have hq1 := ihlen
      rw [hq] at hq1
      simp only [List.length_cons] at hq1
      simp only [List.length_cons] at *
      omega

/-- C7: in every system state reachable from the mailbox as
`TaskChannel::new` builds it, the channel's capacity is the fixed
constant 1, the messages received by the consumer followed by the
messages still queued are exactly the messages sent in order (nothing
is dropped, nothing reordered), at most one message is buffered, and
when that one buffered message is present a further `blocking_send`
blocks the calling thread instead of enqueueing, erroring or dropping:
it completes only after the consumer dequeues. -/
theorem mailbox_capacity_one_fifo (s : ChanSys Msg)
    (h : Relation.ReflTransGen ChanStep (chanSysInit Msg) s) :
    s.chan.capacity = 1 ∧
    s.received ++ s.chan.queue = s.sent ∧
    s.chan.queue.length ≤ 1 ∧
    (∀ m, s.chan.queue.length = 1 → blockingSend s.chan m = .blocked) := by
  have key : s.chan.capacity = 1 ∧ s.chan.closed = false ∧
      s.received ++ s.chan.queue = s.sent ∧ s.chan.queue.length ≤ 1 := by
    induction h with
    | refl => exact ⟨rfl, rfl, rfl, by simp [chanSysInit, taskChannelChan]⟩
    | tail hst step ih => exact chanStep_invariant step ih
  obtain ⟨hcap, hcl, hfifo, hlen⟩ := key
  refine ⟨hcap, hfifo, hlen, fun m hfull => ?_⟩
  rw [blockingSend, if_neg (by simp [hcl]), if_neg (by omega)]

/-- Concrete run of `mailbox_capacity_one_fifo` at the initial system
state. -/
theorem mailbox_capacity_one_fifo_witness :
    (chanSysInit Nat).chan.capacity = 1 ∧
    (chanSysInit Nat).received ++ (chanSysInit Nat).chan.queue =
      (chanSysInit Nat).sent := by
  have h := mailbox_capacity_one_fifo (chanSysInit Nat)
      Relation.ReflTransGen.refl
  exact ⟨h.1, h.2.1⟩

/-- C10: once the consumer side is gone (the channel is closed because
the receiver was dropped), every `TaskChannel::send` panics: the
`Err(SendError(_))` that `blocking_send` returns is fed to `unwrap`.
The call neither blocks, nor returns the error, nor silently discards
the message. -/
theorem send_panics_after_receiver_drop (c : Chan Msg) (m : Msg)
    (h : c.closed = true) :
    taskChannelSend c m = .panicked := by
  rw [taskChannelSend, blockingSend, if_pos (by simp [h])]

/-- Concrete run of `send_panics_after_receiver_drop` on a closed
capacity-1 channel. -/
theorem send_panics_after_receiver_drop_witness :
    taskChannelSend (⟨1, [], true⟩ : Chan Nat) 3 = .panicked :=
  send_panics_after_receiver_drop (⟨1, [], true⟩ : Chan Nat) 3 rfl
